import Mathlib

/-!
# git-pr-tui: remote resolution, row projection and the key handler

A shallow embedding of `cmd/main.go`.

* Go strings are lists of characters (`GoString`); every operation the program
  applies to them (`strings.HasPrefix`, `CutPrefix`, `CutSuffix`, `Split`,
  `Join`) is written out after the Go standard library.
* A Go pointer is an `Option`; dereferencing `none` is the run-time panic
  `Failure.nilDereference`.
* A slice index expression is `goIndex`; an index that is negative or not below
  the length is the run-time panic `Failure.indexOutOfRange`.
* `log.Fatal` ends the process; it is the result `Failure.fatal msg`.
* The git working copy, the time formatter and the table widget's own `Update`
  are collaborators outside the program: they are arguments of the definitions.
-/

namespace GitPrTui

/-- A Go string, as the list of its characters. The host parts, the suffix and
the separator the program works with are ASCII, for which cutting and splitting
by character and by byte agree. -/
abbrev GoString := List Char

/-- The ways a run of the program stops without a value. -/
inductive Failure where
  /-- The call `log.Fatal(msg)`: the message is logged and the process exits. -/
  | fatal (msg : String)
  /-- The run-time panic "index out of range [index] with length length". -/
  | indexOutOfRange (index : Int) (length : Nat)
  /-- The run-time panic "invalid memory address or nil pointer dereference". -/
  | nilDereference
  deriving DecidableEq, Repr

deriving instance DecidableEq for Except

/-- The index expression `xs[i]` of Go, for an `int` index. -/
def goIndex {α : Type} (xs : List α) (i : Int) : Except Failure α :=
  if i < 0 then .error (.indexOutOfRange i xs.length)
  else
    match xs.get? i.toNat with
    | some x => .ok x
    | none => .error (.indexOutOfRange i xs.length)

/-- The unary `*p` of Go. -/
def deref {α : Type} (p : Option α) : Except Failure α :=
  match p with
  | some x => .ok x
  | none => .error .nilDereference

/-! ## The functions of package `strings` the program calls -/

namespace strings

/-- Go: `len(s) >= len(prefix) && s[:len(prefix)] == prefix`. -/
def HasPrefix (s pre : GoString) : Bool :=
  decide (pre.length ≤ s.length) && (s.take pre.length == pre)

/-- Go: `len(s) >= len(suffix) && s[len(s)-len(suffix):] == suffix`. -/
def HasSuffix (s suffix : GoString) : Bool :=
  decide (suffix.length ≤ s.length) && (s.drop (s.length - suffix.length) == suffix)

/-- Go: `if !HasPrefix(s, prefix) { return s, false }; return s[len(prefix):], true`. -/
def CutPrefix (s pre : GoString) : GoString × Bool :=
  if HasPrefix s pre then (s.drop pre.length, true) else (s, false)

/-- Go: `if !HasSuffix(s, suffix) { return s, false }; return s[:len(s)-len(suffix)], true`. -/
def CutSuffix (s suffix : GoString) : GoString × Bool :=
  if HasSuffix s suffix then (s.take (s.length - suffix.length), true) else (s, false)

/-- Go `Index`: the position of the first instance of `substr` in `s`;
`none` stands for the result `-1`. -/
def Index (s substr : GoString) : Option Nat :=
  if HasPrefix s substr then some 0
  else
    match s with
    | [] => none
    | _ :: t => (Index t substr).map (· + 1)

/-- The loop of Go `Count`: `i := Index(s, substr); if i == -1 { return n }; n++;
s = s[i+len(substr):]`. Each round removes at least one character when `substr`
is not empty, so `fuel = len(s)` rounds are never exhausted. -/
def countLoop (substr : GoString) : Nat → GoString → Nat
  | 0, _ => 0
  | fuel + 1, s =>
    match Index s substr with
    | none => 0
    | some i => 1 + countLoop substr fuel (s.drop (i + substr.length))

/-- Go `Count`: the number of non-overlapping instances of `substr` in `s`; the
empty `substr` gives the number of characters plus one, and a `substr` of length
one is counted occurrence by occurrence (`bytealg.CountString`). -/
def Count (s substr : GoString) : Nat :=
  match substr with
  | [] => s.length + 1
  | [c] => s.count c
  | _ => countLoop substr s.length s

/-- Go `explode` without a limit: one string for each character. -/
def explode (s : GoString) : List GoString :=
  s.map fun c => [c]

/-- The loop of Go `genSplit`, run at most `n` times: `m := Index(s, sep);
if m < 0 { break }; a[i] = s[:m]; s = s[m+len(sep):]`, and after the loop
`a[i] = s`. -/
def splitLoop (sep : GoString) : Nat → GoString → List GoString
  | 0, s => [s]
  | n + 1, s =>
    match Index s sep with
    | none => [s]
    | some m => s.take m :: splitLoop sep n (s.drop (m + sep.length))

/-- Go `Split(s, sep)`, which is `genSplit(s, sep, 0, -1)`: an empty `sep`
explodes `s`; otherwise `n = Count(s, sep) + 1`, cut down to `len(s) + 1`, and
the loop runs while `i < n - 1`. -/
def Split (s sep : GoString) : List GoString :=
  if sep = [] then explode s
  else splitLoop sep (min (Count s sep + 1) (s.length + 1) - 1) s

/-- Go `Join`: no element gives `""`, one element gives itself, otherwise the
first element followed by `sep` and the next element, for each further one. -/
def Join (elems : List GoString) (sep : GoString) : GoString :=
  match elems with
  | [] => []
  | [e] => e
  | e :: rest => rest.foldl (fun b s => b ++ sep ++ s) e

end strings

/-! ## The remote resolver -/

/-- The constant `githubHTTPPrefix`. -/
def githubHTTPPrefix : GoString := "https://github.com/".toList

/-- The constant `githubSSHPrefix`. -/
def githubSSHPrefix : GoString := "git@github.com:".toList

/-- What the program reads of a remote: `remote.Config().URLs`. -/
structure RemoteConfig where
  URLs : List GoString

/-- What the program reads of an opened repository: `repo.Remote(name)`, which
is `none` when the lookup returns an error. -/
structure Repository where
  Remote : String → Option RemoteConfig

/-- Lines 84 to 95 of `getRepoAndOwner`: the work done on the first URL. -/
def resolveRemoteURL (remoteURL : GoString) : Except Failure (GoString × GoString) :=
  let stripped : Except Failure GoString :=
    if strings.HasPrefix remoteURL githubHTTPPrefix then
      .ok (strings.CutPrefix remoteURL githubHTTPPrefix).1
    else if strings.HasPrefix remoteURL githubSSHPrefix then
      .ok (strings.CutPrefix remoteURL githubSSHPrefix).1
    else .error (.fatal "Error parsing remote github url")
  match stripped with
  | .error e => .error e
  | .ok afterHost =>
    let remoteURL := (strings.CutSuffix afterHost ".git".toList).1
    let remoteURLSplit := strings.Split remoteURL "/".toList
    match goIndex remoteURLSplit 0 with
    | .error e => .error e
    | .ok owner =>
      match goIndex remoteURLSplit 1 with
      | .error e => .error e
      | .ok repo => .ok (owner, repo)

/-- The function `getRepoAndOwner`. Its argument is what `git.PlainOpen(".")`
finds in the working directory, `none` when that call returns an error. -/
def getRepoAndOwner (plainOpen : Option Repository) : Except Failure (GoString × GoString) :=
  match plainOpen with
  | none => .error (.fatal "Error loading repo")
  | some repo =>
    match repo.Remote "origin" with
    | none => .error (.fatal "Error loading origin remote")
    | some remote =>
      match remote.URLs with
      | [] => .error (.fatal "Error getting origin's url")
      | remoteURL :: _ => resolveRemoteURL remoteURL

/-! ## Pull request records and the row projection -/

/-- The part of `github.Label` the program reads. -/
structure Label where
  Name : Option GoString
  deriving DecidableEq

/-- The part of `github.User` the program reads. -/
structure User where
  Login : Option GoString
  deriving DecidableEq

/-- The part of `github.PullRequest` the program reads; `τ` is the type of the
time value inside a `github.Timestamp`. -/
structure PullRequest (τ : Type) where
  Title : Option GoString
  User : Option User
  Labels : List (Option Label)
  CreatedAt : Option τ
  HTMLURL : Option GoString
  deriving DecidableEq

/-- The nil-safe accessor `(*PullRequest).GetUser`. -/
def PullRequest.GetUser {τ : Type} (p : Option (PullRequest τ)) : Option GitPrTui.User :=
  match p with
  | none => none
  | some pr => pr.User

/-- The nil-safe accessor `(*User).GetLogin`. -/
def User.GetLogin (u : Option User) : GoString :=
  match u with
  | none => []
  | some user =>
    match user.Login with
    | none => []
    | some login => login

/-- A `table.Row`, which is a `[]string`. -/
abbrev Row := List GoString

/-- The layout string handed to `Format` on line 119. -/
def dateLayout : GoString := "Mon Jan 2 15:04 MST 2006".toList

/-- Lines 115 to 118 of `main`: the inner loop, started with the labels
collected so far. -/
def mainLabels : List (Option Label) → List GoString → Except Failure (List GoString)
  | [], labels => .ok labels
  | label :: rest, labels =>
    match deref label with
    | .error e => .error e
    | .ok l =>
      match deref l.Name with
      | .error e => .error e
      | .ok name => mainLabels rest (labels ++ [name])

/-- Lines 115 to 119 of `main`: the row appended for one element of `prs`.
`Format t layout` is `t.Format(layout)` of package `time`. -/
def mainRow {τ : Type} (Format : τ → GoString → GoString) (pr : Option (PullRequest τ)) :
    Except Failure Row :=
  match deref pr with
  | .error e => .error e
  | .ok p =>
    match mainLabels p.Labels [] with
    | .error e => .error e
    | .ok labels =>
      match deref p.Title with
      | .error e => .error e
      | .ok title =>
        match deref p.CreatedAt with
        | .error e => .error e
        | .ok createdAt =>
          .ok [title, User.GetLogin (PullRequest.GetUser pr), strings.Join labels ", ".toList,
            Format createdAt dateLayout]

/-- Lines 113 to 120 of `main`: the outer loop, started with the rows appended
so far. -/
def mainRows {τ : Type} (Format : τ → GoString → GoString) :
    List (Option (PullRequest τ)) → List Row → Except Failure (List Row)
  | [], rows => .ok rows
  | pr :: rest, rows =>
    match mainRow Format pr with
    | .error e => .error e
    | .ok row => mainRows Format rest (rows ++ [row])

/-! ## The table widget and the key handler -/

namespace table

/-- The part of the widget state `table.Model` the program builds, reads and
writes: the row list, the cursor (a Go `int`) and the focus flag. -/
structure Model where
  rows : List Row
  cursor : Int
  focus : Bool
  deriving DecidableEq

/-- The method `Focused`. -/
def Model.Focused (t : Model) : Bool := t.focus

/-- The method `Focus`. -/
def Model.Focus (t : Model) : Model := { t with focus := true }

/-- The method `Blur`. -/
def Model.Blur (t : Model) : Model := { t with focus := false }

/-- The method `Cursor`. -/
def Model.Cursor (t : Model) : Int := t.cursor

/-- The call `table.New(..., table.WithRows(rows), table.WithFocused(focused), ...)`:
a fresh widget has its cursor at the zero value. -/
def New (rows : List Row) (focused : Bool) : Model :=
  { rows := rows, cursor := 0, focus := focused }

end table

/-- A `tea.Msg`: a key press, named by `msg.String()`, or any other message. -/
inductive Msg where
  | KeyMsg (key : String)
  | other (id : Nat)
  deriving DecidableEq

/-- A `tea.Cmd`: `nil`, `tea.Quit`, `tea.ExecProcess(exec.Command(name, arg...), nil)`,
or any other command. -/
inductive Cmd where
  | nil
  | Quit
  | ExecProcess (name : GoString) (arg : List GoString)
  | other (id : Nat)
  deriving DecidableEq

/-- The widget's own `table.Model.Update`, a collaborator outside the program. -/
abbrev TableUpdate := table.Model → Msg → table.Model × Cmd

/-- The struct `model`. -/
structure model (τ : Type) where
  table : table.Model
  prs : List (Option (PullRequest τ))
  deriving DecidableEq

/-- Lines 59 and 60 of `model.Update`: `m.table, cmd = m.table.Update(msg); return m, cmd`. -/
def model.forward {τ : Type} (tableUpdate : TableUpdate) (m : model τ) (msg : Msg) :
    Except Failure (model τ × Cmd) :=
  .ok ({ m with table := (tableUpdate m.table msg).1 }, (tableUpdate m.table msg).2)

/-- The method `model.Update`. -/
def model.Update {τ : Type} (tableUpdate : TableUpdate) (m : model τ) (msg : Msg) :
    Except Failure (model τ × Cmd) :=
  match msg with
  | .KeyMsg key =>
    if key = "esc" then
      if m.table.Focused then model.forward tableUpdate { m with table := m.table.Blur } msg
      else model.forward tableUpdate { m with table := m.table.Focus } msg
    else if key = "q" ∨ key = "ctrl+c" then .ok (m, .Quit)
    else if key = "enter" then
      match goIndex m.prs m.table.Cursor with
      | .error e => .error e
      | .ok pr =>
        match pr with
        | none => model.forward tableUpdate m msg
        | some p =>
          match deref p.HTMLURL with
          | .error e => .error e
          | .ok url =>
            if strings.HasPrefix url "https://".toList || strings.HasPrefix url "http://".toList then
              .ok (m, .ExecProcess "xdg-open".toList [url])
            else model.forward tableUpdate m msg
    else model.forward tableUpdate m msg
  | .other _ => model.forward tableUpdate m msg

/-- Lines 113 to 148 of `main`: the model handed to the event loop for the
pull requests the API returned. -/
def mainModel {τ : Type} (Format : τ → GoString → GoString)
    (prs : List (Option (PullRequest τ))) : Except Failure (model τ) :=
  match mainRows Format prs [] with
  | .error e => .error e
  | .ok rows => .ok { table := table.New rows true, prs := prs }

/-- A stand-in for the widget used to run the definitions: when focused it
moves the cursor on `down` and `up` between `0` and `len(rows) - 1` the way the
widget clamps it, `min(max(v, 0), len(rows) - 1)`; it never touches the focus
flag and returns no command. -/
def sampleTableUpdate : TableUpdate := fun t msg =>
  if t.focus then
    match msg with
    | .KeyMsg key =>
      if key = "down" then
        ({ t with cursor := min (max (t.cursor + 1) 0) ((t.rows.length : Int) - 1) }, .nil)
      else if key = "up" then
        ({ t with cursor := min (max (t.cursor - 1) 0) ((t.rows.length : Int) - 1) }, .nil)
      else (t, .nil)
    | .other _ => (t, .nil)
  else (t, .nil)

/-! ## Definitions used to state the facts, and sample data -/

/-- The first URL of remote `origin`, when the three reads before line 83
succeed: the repository opens, the remote exists and it has a URL. -/
def originURL (plainOpen : Option Repository) : Option GoString :=
  match plainOpen with
  | none => none
  | some repo =>
    match repo.Remote "origin" with
    | none => none
    | some remote => remote.URLs.head?

/-- A working copy whose remote `origin` has exactly the given URLs and which
has no other remote. -/
def repoWithOrigin (urls : List GoString) : Option Repository :=
  some { Remote := fun name => if name = "origin" then some { URLs := urls } else none }

/-- The label pointer the API client returns for a label called `name`. -/
def labelNamed (name : GoString) : Option Label := some { Name := some name }

/-- Every pointer `main` dereferences while building the row of `pr` is set:
the record, its title, its creation time, each label and each label's name. -/
def complete {τ : Type} (pr : Option (PullRequest τ)) : Bool :=
  match pr with
  | none => false
  | some p =>
    p.Title.isSome && p.CreatedAt.isSome &&
      p.Labels.all fun l =>
        match l with
        | none => false
        | some label => label.Name.isSome

/-- The label names of a record, in the order of the record, skipping nothing
but unset pointers. -/
def labelNames {τ : Type} (p : PullRequest τ) : List GoString :=
  p.Labels.filterMap fun l => l.bind fun label => label.Name

/-- The row of a record in the words of the specification: the title, the
submitter's login or the empty string, the label names joined with `", "`, and
the formatted creation time. -/
def specRow {τ : Type} (Format : τ → GoString → GoString) (p : PullRequest τ) : Row :=
  [p.Title.getD [],
    ((p.User.bind fun u => u.Login).getD []),
    List.intercalate ", ".toList (labelNames p),
    (p.CreatedAt.map fun t => Format t dateLayout).getD []]

/-- A stand-in for `time.Time.Format` used to run the definitions: it prints
the layout itself. -/
def sampleFormat : Nat → GoString → GoString := fun _ layout => layout

/-- A pull request without labels, submitted by `alice`. -/
def samplePull1 : PullRequest Nat :=
  { Title := some "Fix crash".toList
    User := some { Login := some "alice".toList }
    Labels := []
    CreatedAt := some 0
    HTMLURL := some "https://github.com/acme/widgets/pull/1".toList }

/-- A pull request with three labels and no submitter record. -/
def samplePull2 : PullRequest Nat :=
  { Title := some "Add docs".toList
    User := none
    Labels := [labelNamed "bug".toList, labelNamed "P1".toList, labelNamed "needs-review".toList]
    CreatedAt := some 1
    HTMLURL := some "https://github.com/acme/widgets/pull/2".toList }

/-- The record list of the samples. -/
def samplePulls : List (Option (PullRequest Nat)) := [some samplePull1, some samplePull2]

/-- The row `main` builds for `samplePull2`. -/
def sampleRow2 : Row :=
  ["Add docs".toList, [], "bug, P1, needs-review".toList, dateLayout]

/-- The model of the samples with the cursor on the second row. -/
def sampleModel : model Nat :=
  { table := { rows := [specRow sampleFormat samplePull1, sampleRow2], cursor := 1, focus := true }
    prs := samplePulls }

/-- A model with no record whose cursor is `-1`, the value the widget's clamp
`min(max(v, 0), len(rows) - 1)` leaves in a table without rows. -/
def emptyModelBelowZero : model Nat :=
  { table := { rows := [], cursor := -1, focus := true }, prs := [] }

/-! ## Facts about the string functions -/

namespace strings

theorem hasPrefix_iff (s pre : GoString) : HasPrefix s pre = true ↔ pre <+: s := by
  unfold HasPrefix
  rw [ List.prefix_iff_eq_take]
  constructor
  · intro h
    simp only [Bool.and_eq_true, decide_eq_true_eq, beq_iff_eq] at h
    exact h.2.symm
  · intro h
    simp only [Bool.and_eq_true, decide_eq_true_eq, beq_iff_eq]
    refine ⟨?_, h.symm⟩
    have := congrArg List.length h
    simp only [List.length_take] at this
    omega

theorem hasSuffix_iff (s suffix : GoString) : HasSuffix s suffix = true ↔ suffix <:+ s := by
  unfold HasSuffix
  rw [ List.suffix_iff_eq_drop]
  constructor
  · intro h
    simp only [Bool.and_eq_true, decide_eq_true_eq, beq_iff_eq] at h
    exact h.2.symm
  · intro h
    simp only [Bool.and_eq_true, decide_eq_true_eq, beq_iff_eq]
    refine ⟨?_, h.symm⟩
    have := congrArg List.length h
    simp only [List.length_drop] at this
    omega

theorem cutPrefix_append (pre r : GoString) : CutPrefix (pre ++ r) pre = (r, true) := by
  have h : HasPrefix (pre ++ r) pre = true := (hasPrefix_iff _ _).2 (List.prefix_append pre r)
  simp [CutPrefix, h]

theorem cutSuffix_append (r suffix : GoString) : CutSuffix (r ++ suffix) suffix = (r, true) := by
  have h : HasSuffix (r ++ suffix) suffix = true := (hasSuffix_iff _ _).2 (List.suffix_append r suffix)
  simp [CutSuffix, h]

theorem cutSuffix_of_hasSuffix_false (s suffix : GoString) (h : HasSuffix s suffix = false) :
    CutSuffix s suffix = (s, false) := by
  unfold CutSuffix
  rw [h]
  rfl

theorem cutSuffix_of_not_suffix (s suffix : GoString) (h : ¬ suffix <:+ s) :
    CutSuffix s suffix = (s, false) := by
  have h1 : HasSuffix s suffix = false := by
    rw [← Bool.not_eq_true, hasSuffix_iff]; exact h
  simp [CutSuffix, h1]

/-- A suffix that does not contain `c` cannot reach across an occurrence of `c`. -/
theorem suffix_append_cons_iff (c : Char) (suffix a b : GoString) (hc : c ∉ suffix) :
    suffix <:+ a ++ c :: b ↔ suffix <:+ b := by
  induction a with
  | nil =>
    rw [List.nil_append, List.suffix_cons_iff]
    constructor
    · rintro (h | h)
      · exact absurd (h ▸ List.mem_cons_self c b) hc
      · exact h
    · exact Or.inr
  | cons d a ih =>
    rw [List.cons_append, List.suffix_cons_iff, ih]
    constructor
    · rintro (h | h)
      · exact absurd (h ▸ List.mem_cons_of_mem d (List.mem_append_right a (List.mem_cons_self c b))) hc
      · exact h
    · exact Or.inr

/-- Cutting a suffix that does not contain `c` leaves everything up to an
occurrence of `c` in place. -/
theorem cutSuffix_append_cons (c : Char) (suffix a b : GoString) (hc : c ∉ suffix) :
    (CutSuffix (a ++ c :: b) suffix).1 = a ++ c :: (CutSuffix b suffix).1 := by
  by_cases h : suffix <:+ b
  · obtain ⟨r, rfl⟩ := h
    rw [cutSuffix_append]
    have : a ++ c :: (r ++ suffix) = (a ++ c :: r) ++ suffix := by simp
    rw [this, cutSuffix_append]
  · rw [cutSuffix_of_not_suffix b suffix h,
      cutSuffix_of_not_suffix _ suffix (mt (suffix_append_cons_iff c suffix a b hc).1 h)]

theorem hasPrefix_nil_singleton (c : Char) : HasPrefix [] [c] = false := rfl

theorem hasPrefix_cons_singleton (d c : Char) (t : GoString) :
    HasPrefix (d :: t) [c] = decide (d = c) := by
  by_cases h : d = c <;> simp [HasPrefix, h]

theorem index_of_not_mem (c : Char) (s : GoString) (h : c ∉ s) : Index s [c] = none := by
  induction s with
  | nil => rfl
  | cons d t ih =>
    have hd : ¬ d = c := fun e => h (e ▸ List.mem_cons_self d t)
    have ht : c ∉ t := fun e => h (List.mem_cons_of_mem d e)
    rw [Index, hasPrefix_cons_singleton]
    simp [hd, ih ht]

theorem index_append_cons (c : Char) (a r : GoString) (h : c ∉ a) :
    Index (a ++ c :: r) [c] = some a.length := by
  induction a with
  | nil =>
    rw [List.nil_append, Index, hasPrefix_cons_singleton]
    simp
  | cons d t ih =>
    have hd : ¬ d = c := fun e => h (e ▸ List.mem_cons_self d t)
    have ht : c ∉ t := fun e => h (List.mem_cons_of_mem d e)
    rw [List.cons_append, Index, hasPrefix_cons_singleton]
    simp [hd, ih ht]

theorem splitLoop_of_not_mem (c : Char) (n : Nat) (s : GoString) (h : c ∉ s) :
    splitLoop [c] n s = [s] := by
  cases n with
  | zero => rfl
  | succ n => simp [splitLoop, index_of_not_mem c s h]

theorem splitLoop_append_cons (c : Char) (n : Nat) (a r : GoString) (h : c ∉ a) :
    splitLoop [c] (n + 1) (a ++ c :: r) = a :: splitLoop [c] n r := by
  simp [splitLoop, index_append_cons c a r h]

theorem split_singleton (c : Char) (s : GoString) : Split s [c] = splitLoop [c] (s.count c) s := by
  have hle : s.count c ≤ s.length := List.count_le_length c s
  have : min (s.count c + 1) (s.length + 1) - 1 = s.count c := by omega
  simp [Split, Count, this]

/-- Splitting a string without the separator gives the string alone. -/
theorem split_of_not_mem (c : Char) (s : GoString) (h : c ∉ s) : Split s [c] = [s] := by
  rw [split_singleton, splitLoop_of_not_mem c _ s h]

/-- Splitting cuts at the first separator and goes on with what follows it. -/
theorem split_append_cons (c : Char) (a r : GoString) (h : c ∉ a) :
    Split (a ++ c :: r) [c] = a :: Split r [c] := by
  rw [split_singleton, split_singleton]
  have : (a ++ c :: r).count c = r.count c + 1 := by
    simp [List.count_append, List.count_eq_zero_of_not_mem h]
  rw [this, splitLoop_append_cons c _ a r h]

theorem splitLoop_ne_nil (sep : GoString) (n : Nat) (s : GoString) : splitLoop sep n s ≠ [] := by
  cases n with
  | zero => simp [splitLoop]
  | succ n =>
    unfold splitLoop
    cases Index s sep <;> simp

theorem split_singleton_ne_nil (c : Char) (s : GoString) : Split s [c] ≠ [] := by
  rw [split_singleton]; exact splitLoop_ne_nil _ _ _

/-- The first occurrence of a character splits a list around it. -/
theorem exists_first_occurrence (c : Char) (s : GoString) (h : c ∈ s) :
    ∃ a r, s = a ++ c :: r ∧ c ∉ a := by
  induction s with
  | nil => exact absurd h (List.not_mem_nil c)
  | cons d t ih =>
    by_cases hd : d = c
    · exact ⟨[], t, by simp [hd], List.not_mem_nil c⟩
    · have ht : c ∈ t := by
        rcases List.mem_cons.1 h with e | e
        · exact absurd e.symm hd
        · exact e
      obtain ⟨a, r, rfl, ha⟩ := ih ht
      refine ⟨d :: a, r, by simp, ?_⟩
      intro hm
      rcases List.mem_cons.1 hm with e | e
      · exact hd e.symm
      · exact ha e

theorem split_eq_splitOn_of_length_le (c : Char) (n : Nat) :
    ∀ s : GoString, s.length ≤ n → Split s [c] = s.splitOn c := by
  induction n with
  | zero =>
    intro s hs
    have : s = [] := List.length_eq_zero.1 (Nat.le_zero.1 hs)
    subst this
    rw [split_of_not_mem c [] (List.not_mem_nil c)]
    rfl
  | succ n ih =>
    intro s hs
    by_cases hc : c ∈ s
    · obtain ⟨a, r, rfl, ha⟩ := exists_first_occurrence c s hc
      have hr : r.length ≤ n := by
        simp only [List.length_append, List.length_cons] at hs
        omega
      rw [split_append_cons c a r ha, ih r hr]
      unfold List.splitOn
      have hno : ∀ x ∈ a, ¬ (x == c) = true := by
        intro x hx e
        exact ha ((beq_iff_eq.1 e) ▸ hx)
      rw [List.splitOnP_first (· == c) a hno c (beq_self_eq_true c) r]
    · rw [split_of_not_mem c s hc]
      unfold List.splitOn
      have hno : ∀ x ∈ s, ¬ (x == c) = true := by
        intro x hx e
        exact hc ((beq_iff_eq.1 e) ▸ hx)
      rw [List.splitOnP_eq_single (· == c) s hno]

/-- Go `Split` on a one-character separator computes the segments between the
occurrences of that character. -/
theorem split_eq_splitOn (c : Char) (s : GoString) : Split s [c] = s.splitOn c :=
  split_eq_splitOn_of_length_le c s.length s (le_refl _)

/-- The string functions on a few inputs. -/
theorem string_samples :
    Split "".toList "/".toList = [[]] ∧
    Split "acme".toList "/".toList = ["acme".toList] ∧
    Split "a/b/c".toList "/".toList = ["a".toList, "b".toList, "c".toList] ∧
    Split "/a//".toList "/".toList = [[], "a".toList, [], []] ∧
    Split "a--b-c".toList "--".toList = ["a".toList, "b-c".toList] ∧
    Split "ab".toList [] = ["a".toList, "b".toList] ∧
    CutSuffix "widgets.git".toList ".git".toList = ("widgets".toList, true) ∧
    CutSuffix "w.git.git".toList ".git".toList = ("w.git".toList, true) ∧
    CutSuffix "git".toList ".git".toList = ("git".toList, false) ∧
    CutPrefix "git@github.com:a/b".toList "git@github.com:".toList = ("a/b".toList, true) ∧
    HasPrefix "http://x".toList "https://".toList = false ∧
    Index "a/b/c".toList "/".toList = some 1 ∧
    Count "aaaa".toList "aa".toList = 2 ∧
    Join [] ", ".toList = [] ∧
    Join ["bug".toList] ", ".toList = "bug".toList ∧
    Join ["bug".toList, "P1".toList, "bug".toList] ", ".toList = "bug, P1, bug".toList := by
  decide

end strings

/-! ## Facts about the remote resolver -/

theorem getRepoAndOwner_of_originURL (plainOpen : Option Repository) (url : GoString)
    (h : originURL plainOpen = some url) : getRepoAndOwner plainOpen = resolveRemoteURL url := by
  unfold originURL at h
  unfold getRepoAndOwner
  cases plainOpen with
  | none => simp at h
  | some repo =>
    simp only at h ⊢
    cases hr : repo.Remote "origin" with
    | none => simp [hr] at h
    | some remote =>
      simp only [hr] at h ⊢
      cases hu : remote.URLs with
      | nil => simp [hu] at h
      | cons u more =>
        simp only [hu, List.head?_cons, Option.some.injEq] at h ⊢
        rw [h]

theorem goIndex_cons_zero {α : Type} (x : α) (xs : List α) : goIndex (x :: xs) 0 = .ok x := by
  simp [goIndex]

theorem goIndex_cons_cons_one {α : Type} (x y : α) (xs : List α) :
    goIndex (x :: y :: xs) 1 = .ok y := by
  simp [goIndex]

theorem goIndex_error {α : Type} (xs : List α) (i : Int) (e : Failure)
    (h : goIndex xs i = .error e) : e = .indexOutOfRange i xs.length := by
  unfold goIndex at h
  split at h
  · exact (Except.error.inj h).symm
  · split at h
    · exact absurd h (by simp)
    · exact (Except.error.inj h).symm

theorem hasPrefix_ssh_http (rem : GoString) :
    strings.HasPrefix (githubSSHPrefix ++ rem) githubHTTPPrefix = false := by
  rw [← Bool.not_eq_true, strings.hasPrefix_iff]
  have h1 : githubSSHPrefix = 'g' :: "it@github.com:".toList := by decide
  have h2 : githubHTTPPrefix = 'h' :: "ttps://github.com/".toList := by decide
  rw [h1, h2, List.cons_append, List.cons_prefix_cons]
  rintro ⟨h, -⟩
  exact absurd h (by decide)

/-- After a recognised host part, the result is read off the segments of what
follows it, less a trailing `.git`. -/
theorem resolveRemoteURL_of_host (pre rem : GoString)
    (hpre : pre = githubHTTPPrefix ∨ pre = githubSSHPrefix) :
    resolveRemoteURL (pre ++ rem) =
      match goIndex (strings.Split (strings.CutSuffix rem ".git".toList).1 "/".toList) 0 with
      | .error e => .error e
      | .ok owner =>
        match goIndex (strings.Split (strings.CutSuffix rem ".git".toList).1 "/".toList) 1 with
        | .error e => .error e
        | .ok repo => .ok (owner, repo) := by
  rcases hpre with rfl | rfl
  · have h : strings.HasPrefix (githubHTTPPrefix ++ rem) githubHTTPPrefix = true :=
      (strings.hasPrefix_iff _ _).2 (List.prefix_append _ _)
    simp only [resolveRemoteURL, h, if_true, strings.cutPrefix_append]
  · have h : strings.HasPrefix (githubSSHPrefix ++ rem) githubSSHPrefix = true :=
      (strings.hasPrefix_iff _ _).2 (List.prefix_append _ _)
    simp only [resolveRemoteURL, h, hasPrefix_ssh_http, if_true, strings.cutPrefix_append]
    simp

/-- With a separator after the first segment, the owner is that segment and the
repository name is the first segment of the rest, less a trailing `.git`. -/
theorem resolveRemoteURL_of_sep (pre a t b : GoString) (bs : List GoString)
    (hpre : pre = githubHTTPPrefix ∨ pre = githubSSHPrefix) (ha : '/' ∉ a)
    (hb : strings.Split (strings.CutSuffix t ".git".toList).1 "/".toList = b :: bs) :
    resolveRemoteURL (pre ++ (a ++ '/' :: t)) = .ok (a, b) := by
  rw [resolveRemoteURL_of_host pre _ hpre,
    strings.cutSuffix_append_cons '/' ".git".toList a t (by decide)]
  have hs : "/".toList = ['/'] := rfl
  rw [hs] at hb ⊢
  rw [strings.split_append_cons '/' a _ ha, hb, goIndex_cons_zero, goIndex_cons_cons_one]

/-! ## The remote resolver: the claims -/

/-- C1: when owner and repository name contain no `/` and the name does not end
in `.git`, each of the four forms `https://github.com/<owner>/<name>.git`,
`https://github.com/<owner>/<name>`, `git@github.com:<owner>/<name>.git` and
`git@github.com:<owner>/<name>` as first URL of `origin` makes `getRepoAndOwner`
return exactly `(owner, name)`. -/
theorem C1_supported_forms_give_owner_and_name (owner name : GoString)
    (ho : '/' ∉ owner) (hn : '/' ∉ name)
    (hgit : strings.HasSuffix name ".git".toList = false)
    (plainOpen : Option Repository) (url : GoString)
    (horigin : originURL plainOpen = some url)
    (hform : url = "https://github.com/".toList ++ owner ++ "/".toList ++ name ++ ".git".toList ∨
      url = "https://github.com/".toList ++ owner ++ "/".toList ++ name ∨
      url = "git@github.com:".toList ++ owner ++ "/".toList ++ name ++ ".git".toList ∨
      url = "git@github.com:".toList ++ owner ++ "/".toList ++ name) :
    getRepoAndOwner plainOpen = .ok (owner, name) := by
  rw [getRepoAndOwner_of_originURL plainOpen url horigin]
  have hs : "/".toList = ['/'] := rfl
  have hsplit : strings.Split name "/".toList = [name] := by
    rw [hs]; exact strings.split_of_not_mem '/' name hn
  have hcut : (strings.CutSuffix (name ++ ".git".toList) ".git".toList).1 = name := by
    rw [strings.cutSuffix_append]
  have hkeep : (strings.CutSuffix name ".git".toList).1 = name := by
    rw [strings.cutSuffix_of_hasSuffix_false name _ hgit]
  have hhttp : "https://github.com/".toList = githubHTTPPrefix := rfl
  have hssh : "git@github.com:".toList = githubSSHPrefix := rfl
  rcases hform with h | h | h | h
  · rw [h, hhttp, hs, List.append_assoc, List.append_assoc, List.append_assoc, List.singleton_append]
    exact resolveRemoteURL_of_sep _ owner _ name [] (Or.inl rfl) ho (by rw [hcut, hsplit])
  · rw [h, hhttp, hs, List.append_assoc, List.append_assoc, List.singleton_append]
    exact resolveRemoteURL_of_sep _ owner _ name [] (Or.inl rfl) ho (by rw [hkeep, hsplit])
  · rw [h, hssh, hs, List.append_assoc, List.append_assoc, List.append_assoc, List.singleton_append]
    exact resolveRemoteURL_of_sep _ owner _ name [] (Or.inr rfl) ho (by rw [hcut, hsplit])
  · rw [h, hssh, hs, List.append_assoc, List.append_assoc, List.singleton_append]
    exact resolveRemoteURL_of_sep _ owner _ name [] (Or.inr rfl) ho (by rw [hkeep, hsplit])

/-- C1 at `git@github.com:acme/widgets`. -/
theorem C1_supported_forms_witness :
    getRepoAndOwner (repoWithOrigin ["git@github.com:acme/widgets".toList]) =
      .ok ("acme".toList, "widgets".toList) :=
  C1_supported_forms_give_owner_and_name "acme".toList "widgets".toList (by decide) (by decide)
    (by decide) (repoWithOrigin ["git@github.com:acme/widgets".toList])
    "git@github.com:acme/widgets".toList rfl (Or.inr (Or.inr (Or.inr (by decide))))

/-- C2: `getRepoAndOwner` ends in the fatal error "Error parsing remote github
url", and so returns no pair, exactly when the repository opens, remote `origin`
exists and has a URL, and its first URL starts with neither
`https://github.com/` nor `git@github.com:`. -/
theorem C2_unparseable_remote_iff (plainOpen : Option Repository) :
    getRepoAndOwner plainOpen = .error (.fatal "Error parsing remote github url") ↔
      ∃ url, originURL plainOpen = some url ∧
        strings.HasPrefix url "https://github.com/".toList = false ∧
        strings.HasPrefix url "git@github.com:".toList = false := by
  have hhttp : "https://github.com/".toList = githubHTTPPrefix := rfl
  have hssh : "git@github.com:".toList = githubSSHPrefix := rfl
  rw [hhttp, hssh]
  constructor
  · intro h
    cases hu : originURL plainOpen with
    | none =>
      exfalso
      unfold originURL at hu
      unfold getRepoAndOwner at h
      cases plainOpen with
      | none => simp at h
      | some repo =>
        simp only at h hu
        cases hr : repo.Remote "origin" with
        | none => simp [hr] at h
        | some remote =>
          simp only [hr] at h hu
          cases hl : remote.URLs with
          | nil => simp [hl] at h
          | cons u more => simp [hl] at hu
    | some url =>
      refine ⟨url, rfl, ?_⟩
      rw [getRepoAndOwner_of_originURL plainOpen url hu] at h
      cases h1 : strings.HasPrefix url githubHTTPPrefix with
      | true =>
        exfalso
        obtain ⟨rem, rfl⟩ := (strings.hasPrefix_iff _ _).1 h1
        rw [resolveRemoteURL_of_host _ rem (Or.inl rfl)] at h
        split at h
        · next e he => rw [goIndex_error _ _ e he] at h; simp at h
        · split at h
          · next e he => rw [goIndex_error _ _ e he] at h; simp at h
          · simp at h
      | false =>
        cases h2 : strings.HasPrefix url githubSSHPrefix with
        | true =>
          exfalso
          obtain ⟨rem, rfl⟩ := (strings.hasPrefix_iff _ _).1 h2
          rw [resolveRemoteURL_of_host _ rem (Or.inr rfl)] at h
          split at h
          · next e he => rw [goIndex_error _ _ e he] at h; simp at h
          · split at h
            · next e he => rw [goIndex_error _ _ e he] at h; simp at h
            · simp at h
        | false => exact ⟨rfl, rfl⟩
  · rintro ⟨url, hu, h1, h2⟩
    rw [getRepoAndOwner_of_originURL plainOpen url hu]
    simp [resolveRemoteURL, h1, h2]

/-- C2 at `https://gitlab.com/acme/widgets.git`. -/
theorem C2_unparseable_remote_witness :
    getRepoAndOwner (repoWithOrigin ["https://gitlab.com/acme/widgets.git".toList]) =
      .error (.fatal "Error parsing remote github url") :=
  (C2_unparseable_remote_iff (repoWithOrigin ["https://gitlab.com/acme/widgets.git".toList])).2
    ⟨"https://gitlab.com/acme/widgets.git".toList, rfl, by decide, by decide⟩

/-- C8: for a first URL made of a recognised host part and a remainder, let
`stripped` be the remainder less one trailing `.git`. When `stripped` holds no
`/`, the split has one segment, the read of segment 1 is out of range and
`getRepoAndOwner` stops with that panic instead of a pair; when `stripped` holds
a `/`, both reads are in range and a pair is returned. -/
theorem C8_segment_read_bounds (pre rem : GoString)
    (hpre : pre = "https://github.com/".toList ∨ pre = "git@github.com:".toList)
    (plainOpen : Option Repository) (horigin : originURL plainOpen = some (pre ++ rem)) :
    ('/' ∉ (strings.CutSuffix rem ".git".toList).1 →
      (strings.Split (strings.CutSuffix rem ".git".toList).1 "/".toList).length = 1 ∧
      getRepoAndOwner plainOpen = .error (.indexOutOfRange 1 1)) ∧
    ('/' ∈ (strings.CutSuffix rem ".git".toList).1 →
      ∃ owner name,
        goIndex (strings.Split (strings.CutSuffix rem ".git".toList).1 "/".toList) 0 = .ok owner ∧
        goIndex (strings.Split (strings.CutSuffix rem ".git".toList).1 "/".toList) 1 = .ok name ∧
        getRepoAndOwner plainOpen = .ok (owner, name)) := by
  rw [getRepoAndOwner_of_originURL plainOpen _ horigin, resolveRemoteURL_of_host pre rem hpre]
  have hs : "/".toList = ['/'] := rfl
  rw [hs]
  constructor
  · intro h
    rw [strings.split_of_not_mem '/' _ h]
    exact ⟨rfl, by simp [goIndex]⟩
  · intro h
    obtain ⟨a, r, hr, ha⟩ := strings.exists_first_occurrence '/' _ h
    rw [hr, strings.split_append_cons '/' a r ha]
    cases hsp : strings.Split r ['/'] with
    | nil => exact absurd hsp (strings.split_singleton_ne_nil '/' r)
    | cons b bs =>
      exact ⟨a, b, goIndex_cons_zero _ _, goIndex_cons_cons_one _ _ _,
        by rw [goIndex_cons_zero, goIndex_cons_cons_one]⟩

/-- C8 at `git@github.com:acme.git`. -/
theorem C8_segment_read_bounds_witness :
    getRepoAndOwner (repoWithOrigin ["git@github.com:acme.git".toList]) =
      .error (.indexOutOfRange 1 1) :=
  ((C8_segment_read_bounds "git@github.com:".toList "acme.git".toList (Or.inr rfl)
    (repoWithOrigin ["git@github.com:acme.git".toList]) rfl).1 (by decide)).2

/-- C9: after a recognised host part, let `stripped` be the remainder less one
trailing `.git`. When the segments of `stripped` between its `/` characters
are `seg0`, `seg1` and any further ones, `getRepoAndOwner` returns
`(seg0, seg1)`. In particular, with `a` and `b` free of `/`: a remainder
`a/b/rest` gives `(a, b)` whatever `rest` is; a remainder `a/b.git` gives
`(a, b)` even when `b` itself ends in `.git` (one `.git` is cut, and only at the
very end of the remainder); a remainder `a/b` whose `b` does not end in `.git`
gives `(a, b)`, also when `a` ends in `.git`. -/
theorem C9_first_two_segments (pre : GoString)
    (hpre : pre = "https://github.com/".toList ∨ pre = "git@github.com:".toList) :
    (∀ (rem seg0 seg1 : GoString) (more : List GoString) (plainOpen : Option Repository),
      originURL plainOpen = some (pre ++ rem) →
      (strings.CutSuffix rem ".git".toList).1.splitOn '/' = seg0 :: seg1 :: more →
      getRepoAndOwner plainOpen = .ok (seg0, seg1)) ∧
    (∀ a b : GoString, '/' ∉ a → '/' ∉ b →
      (∀ (rest : GoString) (plainOpen : Option Repository),
        originURL plainOpen = some (pre ++ a ++ "/".toList ++ b ++ "/".toList ++ rest) →
        getRepoAndOwner plainOpen = .ok (a, b)) ∧
      (∀ plainOpen : Option Repository,
        originURL plainOpen = some (pre ++ a ++ "/".toList ++ b ++ ".git".toList) →
        getRepoAndOwner plainOpen = .ok (a, b)) ∧
      (∀ plainOpen : Option Repository,
        originURL plainOpen = some (pre ++ a ++ "/".toList ++ b) →
        strings.HasSuffix b ".git".toList = false →
        getRepoAndOwner plainOpen = .ok (a, b))) := by
  have hs : "/".toList = ['/'] := rfl
  constructor
  · intro rem seg0 seg1 more plainOpen ho hseg
    rw [getRepoAndOwner_of_originURL plainOpen _ ho, resolveRemoteURL_of_host pre rem hpre, hs,
      strings.split_eq_splitOn, hseg, goIndex_cons_zero, goIndex_cons_cons_one]
  · intro a b ha hb
    have hsplit : strings.Split b ['/'] = [b] := strings.split_of_not_mem '/' b hb
    refine ⟨?_, ?_, ?_⟩
    · intro rest plainOpen ho
      rw [getRepoAndOwner_of_originURL plainOpen _ ho, hs]
      simp only [List.append_assoc, List.singleton_append]
      refine resolveRemoteURL_of_sep pre a (b ++ '/' :: rest) b
        (strings.Split (strings.CutSuffix rest ".git".toList).1 ['/']) hpre ha ?_
      rw [strings.cutSuffix_append_cons '/' ".git".toList b rest (by decide), hs,
        strings.split_append_cons '/' b _ hb]
    · intro plainOpen ho
      rw [getRepoAndOwner_of_originURL plainOpen _ ho, hs]
      simp only [List.append_assoc, List.singleton_append]
      exact resolveRemoteURL_of_sep pre a (b ++ ".git".toList) b [] hpre ha
        (by rw [strings.cutSuffix_append, hs, hsplit])
    · intro plainOpen ho hgit
      rw [getRepoAndOwner_of_originURL plainOpen _ ho, hs]
      simp only [List.append_assoc, List.singleton_append]
      refine resolveRemoteURL_of_sep pre a b b [] hpre ha ?_
      have hkeep : (strings.CutSuffix b ".git".toList).1 = b := by
        rw [strings.cutSuffix_of_hasSuffix_false b _ hgit]
      rw [hkeep, hs, hsplit]

/-- C9 at `https://github.com/a/b/c`. -/
theorem C9_first_two_segments_witness :
    getRepoAndOwner (repoWithOrigin ["https://github.com/a/b/c".toList]) =
      .ok ("a".toList, "b".toList) :=
  (C9_first_two_segments "https://github.com/".toList (Or.inl rfl)).1 "a/b/c".toList
    "a".toList "b".toList ["c".toList] (repoWithOrigin ["https://github.com/a/b/c".toList])
    rfl (by decide)

/-! ## The key handler: the claims -/

theorem update_enter {τ : Type} (tableUpdate : TableUpdate) (m : model τ) :
    model.Update tableUpdate m (.KeyMsg "enter") =
      match goIndex m.prs m.table.Cursor with
      | .error e => .error e
      | .ok pr =>
        match pr with
        | none => model.forward tableUpdate m (.KeyMsg "enter")
        | some p =>
          match deref p.HTMLURL with
          | .error e => .error e
          | .ok url =>
            if strings.HasPrefix url "https://".toList || strings.HasPrefix url "http://".toList then
              .ok (m, .ExecProcess "xdg-open".toList [url])
            else model.forward tableUpdate m (.KeyMsg "enter") := by
  simp [model.Update]

theorem goIndex_of_lt {α : Type} (xs : List α) (i : Nat) (x : α) (h : xs.get? i = some x) :
    goIndex xs (i : Int) = .ok x := by
  unfold goIndex
  rw [if_neg (by omega)]
  simp only [Int.toNat_ofNat, h]

theorem goIndex_out_of_range_iff {α : Type} (xs : List α) (i : Int) :
    goIndex xs i = .error (.indexOutOfRange i xs.length) ↔ i < 0 ∨ (xs.length : Int) ≤ i := by
  unfold goIndex
  by_cases h : i < 0
  · simp [h]
  · simp only [h, if_false, false_or]
    cases hg : xs.get? i.toNat with
    | none =>
      simp only [true_iff]
      have := List.get?_eq_none.1 hg
      omega
    | some x =>
      simp only [false_iff, not_le, reduceCtorEq]
      have := (List.get?_eq_some.1 hg).1
      omega

/-- C3: with the cursor at a position `i` inside the record list, and a widget
whose own `Update` returns no process command for `enter`, handling `enter`
returns the command that runs `xdg-open` with the web URL of record `i` as its
only argument when record `i` is present and that URL starts with `http://` or
`https://`; and a process command is returned at all only in that case. -/
theorem C3_enter_opens_the_record_at_the_cursor {τ : Type} (tableUpdate : TableUpdate)
    (hwidget : ∀ t name arg, (tableUpdate t (.KeyMsg "enter")).2 ≠ .ExecProcess name arg)
    (m : model τ) (i : Nat) (hcursor : m.table.Cursor = (i : Int)) (hi : i < m.prs.length) :
    (∀ p url, m.prs.get? i = some (some p) → p.HTMLURL = some url →
      (strings.HasPrefix url "http://".toList = true ∨
        strings.HasPrefix url "https://".toList = true) →
      model.Update tableUpdate m (.KeyMsg "enter") =
        .ok (m, .ExecProcess "xdg-open".toList [url])) ∧
    ((∃ m2 name arg, model.Update tableUpdate m (.KeyMsg "enter") =
        .ok (m2, .ExecProcess name arg)) ↔
      ∃ p url, m.prs.get? i = some (some p) ∧ p.HTMLURL = some url ∧
        (strings.HasPrefix url "http://".toList = true ∨
          strings.HasPrefix url "https://".toList = true)) := by
  have hopen : ∀ p url, m.prs.get? i = some (some p) → p.HTMLURL = some url →
      (strings.HasPrefix url "http://".toList = true ∨
        strings.HasPrefix url "https://".toList = true) →
      model.Update tableUpdate m (.KeyMsg "enter") =
        .ok (m, .ExecProcess "xdg-open".toList [url]) := by
    intro p url hp hu hpre
    rw [update_enter, hcursor, goIndex_of_lt _ _ _ hp]
    simp only [hu, deref]
    have hb : (strings.HasPrefix url "https://".toList ||
        strings.HasPrefix url "http://".toList) = true := by
      rcases hpre with h | h <;> simp only [h, Bool.or_true, Bool.true_or]
    rw [if_pos hb]
  refine ⟨hopen, ?_, ?_⟩
  · rintro ⟨m2, name, arg, h⟩
    obtain ⟨pr, hpr⟩ : ∃ pr, m.prs.get? i = some pr := ⟨_, List.get?_eq_get hi⟩
    rw [update_enter, hcursor, goIndex_of_lt _ _ _ hpr] at h
    cases pr with
    | none =>
      simp only [model.forward, Except.ok.injEq, Prod.mk.injEq] at h
      exact absurd h.2 (hwidget _ _ _)
    | some p =>
      cases hu : p.HTMLURL with
      | none => simp [hu, deref] at h
      | some url =>
        simp only [hu, deref] at h
        by_cases hpre : (strings.HasPrefix url "https://".toList ||
            strings.HasPrefix url "http://".toList) = true
        · refine ⟨p, url, hpr, hu, ?_⟩
          rcases Bool.or_eq_true _ _ ▸ hpre with h1 | h1
          · exact Or.inr h1
          · exact Or.inl h1
        · rw [if_neg hpre] at h
          simp only [model.forward, Except.ok.injEq, Prod.mk.injEq] at h
          exact absurd h.2 (hwidget _ _ _)
  · rintro ⟨p, url, hp, hu, hpre⟩
    exact ⟨m, _, _, hopen p url hp hu hpre⟩

/-- C6: with a widget whose own `Update` leaves the focus flag alone on `esc`,
handling `esc` returns a model whose focus flag is flipped, and handling `esc`
again returns a model whose focus flag is the original one. -/
theorem C6_esc_twice_restores_focus {τ : Type} (tableUpdate : TableUpdate)
    (hwidget : ∀ t, ((tableUpdate t (.KeyMsg "esc")).1).Focused = t.Focused)
    (m : model τ) :
    ∃ m1 c1 m2 c2,
      model.Update tableUpdate m (.KeyMsg "esc") = .ok (m1, c1) ∧
      m1.table.Focused = !m.table.Focused ∧
      model.Update tableUpdate m1 (.KeyMsg "esc") = .ok (m2, c2) ∧
      m2.table.Focused = m.table.Focused := by
  have step : ∀ m0 : model τ, ∃ m1 c1,
      model.Update tableUpdate m0 (.KeyMsg "esc") = .ok (m1, c1) ∧
      m1.table.Focused = !m0.table.Focused := by
    intro m0
    cases hf : m0.table.Focused with
    | true =>
      refine ⟨_, _, by simp only [model.Update, if_true, hf]; rfl, ?_⟩
      rw [hwidget]; rfl
    | false =>
      refine ⟨_, _, by simp only [model.Update, if_true, hf]; rfl, ?_⟩
      rw [hwidget]; rfl
  obtain ⟨m1, c1, h1, f1⟩ := step m
  obtain ⟨m2, c2, h2, f2⟩ := step m1
  exact ⟨m1, c1, m2, c2, h1, f1, h2, by rw [f2, f1, Bool.not_not]⟩

/-- C7: whatever the widget and whatever the state, handling `q` or `ctrl+c`
returns the model it was given together with `tea.Quit`; the widget's own
`Update` has no part in the result. -/
theorem C7_quit_keys_leave_the_model {τ : Type} (tableUpdate : TableUpdate) (m : model τ) :
    model.Update tableUpdate m (.KeyMsg "q") = .ok (m, .Quit) ∧
    model.Update tableUpdate m (.KeyMsg "ctrl+c") = .ok (m, .Quit) := by
  constructor <;> simp [model.Update]

/-! ## The row projection: the claims -/

theorem intercalate_cons (sep y : GoString) (r : List GoString) :
    List.intercalate sep (y :: r) = y ++ List.intercalate sep ([] :: r) := by
  cases r with
  | nil => simp [List.intercalate]
  | cons x r => simp [List.intercalate, List.intersperse]

theorem foldl_join_eq (sep : GoString) (rest : List GoString) (e : GoString) :
    rest.foldl (fun b s => b ++ sep ++ s) e = List.intercalate sep (e :: rest) := by
  induction rest generalizing e with
  | nil => simp [List.intercalate]
  | cons x r ih =>
    rw [List.foldl_cons, ih, intercalate_cons sep (e ++ sep ++ x) r]
    have : List.intercalate sep (e :: x :: r) = e ++ sep ++ List.intercalate sep (x :: r) := by
      simp [List.intercalate, List.intersperse]
    rw [this, intercalate_cons sep x r]
    simp

/-- Go `Join` is the usual joining of a list with a separator. -/
theorem join_eq_intercalate (elems : List GoString) (sep : GoString) :
    strings.Join elems sep = List.intercalate sep elems := by
  unfold strings.Join
  split
  · simp [List.intercalate]
  · simp [List.intercalate]
  · exact foldl_join_eq sep _ _

theorem mainLabels_named (names labels : List GoString) :
    mainLabels (names.map labelNamed) labels = .ok (labels ++ names) := by
  induction names generalizing labels with
  | nil => simp [mainLabels]
  | cons n ns ih =>
    simp only [List.map_cons, mainLabels, labelNamed, deref]
    have := ih (labels ++ [n])
    simp only [labelNamed] at this
    rw [this]
    simp

theorem mainLabels_ok (ls : List (Option Label)) (labels out : List GoString)
    (h : mainLabels ls labels = .ok out) :
    ∃ names : List GoString, ls = names.map labelNamed ∧ out = labels ++ names := by
  induction ls generalizing labels with
  | nil =>
    simp only [mainLabels, Except.ok.injEq] at h
    exact ⟨[], rfl, by simp [h]⟩
  | cons l rest ih =>
    cases l with
    | none => simp [mainLabels, deref] at h
    | some label =>
      cases hn : label.Name with
      | none => simp [mainLabels, deref, hn] at h
      | some n =>
        simp only [mainLabels, deref, hn] at h
        obtain ⟨names, hr, ho⟩ := ih _ h
        refine ⟨n :: names, ?_, by simp [ho]⟩
        rw [List.map_cons, ← hr]
        cases label
        simp only [labelNamed] at hn ⊢
        rw [hn]

theorem labelNames_named {τ : Type} (p : PullRequest τ) (names : List GoString)
    (h : p.Labels = names.map labelNamed) : labelNames p = names := by
  unfold labelNames
  rw [h]
  clear h
  induction names with
  | nil => rfl
  | cons n ns ih => simp [labelNamed, List.filterMap_cons] at ih ⊢; exact ih

theorem getLogin_eq {τ : Type} (p : PullRequest τ) :
    User.GetLogin (PullRequest.GetUser (some p)) = (p.User.bind fun u => u.Login).getD [] := by
  cases p with
  | mk title user labels created url =>
    cases user with
    | none => rfl
    | some u =>
      cases u with
      | mk login => cases login <;> rfl

theorem named_of_all_present (ls : List (Option Label))
    (h : (ls.all fun l =>
      match l with
      | none => false
      | some label => label.Name.isSome) = true) :
    ∃ names : List GoString, ls = names.map labelNamed := by
  induction ls with
  | nil => exact ⟨[], rfl⟩
  | cons l rest ih =>
    rw [List.all_cons, Bool.and_eq_true] at h
    obtain ⟨names, hr⟩ := ih h.2
    cases l with
    | none => exact absurd h.1 (by simp)
    | some label =>
      cases label with
      | mk name =>
        cases name with
        | none => exact absurd h.1 (by simp)
        | some n => exact ⟨n :: names, by rw [List.map_cons, ← hr]; rfl⟩

/-- The row `main` appends for a record with every pointer set is the row of
the specification. -/
theorem mainRow_of_complete {τ : Type} (Format : τ → GoString → GoString) (p : PullRequest τ)
    (h : complete (some p) = true) : mainRow Format (some p) = .ok (specRow Format p) := by
  simp only [complete, Bool.and_eq_true] at h
  obtain ⟨⟨ht, hc⟩, hl⟩ := h
  obtain ⟨names, hn⟩ := named_of_all_present p.Labels hl
  obtain ⟨title, htitle⟩ := Option.isSome_iff_exists.1 ht
  obtain ⟨created, hcreated⟩ := Option.isSome_iff_exists.1 hc
  have hlab : mainLabels p.Labels [] = .ok names := by
    rw [hn, mainLabels_named]; rfl
  simp only [mainRow, deref, hlab, htitle, hcreated, specRow, getLogin_eq, join_eq_intercalate,
    labelNames_named p names hn, Option.getD_some, Option.map_some']

/-- A row is appended for a record only when every pointer is set. -/
theorem complete_of_mainRow_ok {τ : Type} (Format : τ → GoString → GoString)
    (pr : Option (PullRequest τ)) (row : Row) (h : mainRow Format pr = .ok row) :
    complete pr = true := by
  cases pr with
  | none => simp [mainRow, deref] at h
  | some p =>
    simp only [mainRow, deref] at h
    cases hlab : mainLabels p.Labels [] with
    | error e => simp [hlab] at h
    | ok labels =>
      obtain ⟨names, hn, -⟩ := mainLabels_ok _ _ _ hlab
      cases ht : p.Title with
      | none => simp [hlab, ht] at h
      | some title =>
        cases hc : p.CreatedAt with
        | none => simp [hlab, ht, hc] at h
        | some created =>
          simp only [complete, ht, hc, hn, Option.isSome_some, Bool.true_and, List.all_map]
          rw [List.all_eq_true]
          intro n hmem
          obtain ⟨x, -, rfl⟩ := List.mem_map.1 hmem
          rfl

theorem mainRows_of_complete {τ : Type} (Format : τ → GoString → GoString)
    (ps : List (PullRequest τ)) (rows : List Row)
    (h : ∀ p ∈ ps, complete (some p) = true) :
    mainRows Format (ps.map some) rows = .ok (rows ++ ps.map (specRow Format)) := by
  induction ps generalizing rows with
  | nil => simp [mainRows]
  | cons p ps ih =>
    have hp := mainRow_of_complete Format p (h p (List.mem_cons_self p ps))
    simp only [List.map_cons, mainRows, hp]
    rw [ih (rows ++ [specRow Format p]) fun q hq => h q (List.mem_cons_of_mem p hq)]
    simp

theorem present_of_complete {τ : Type} (prs : List (Option (PullRequest τ)))
    (h : ∀ pr ∈ prs, complete pr = true) :
    ∃ ps : List (PullRequest τ), prs = ps.map some ∧ ∀ p ∈ ps, complete (some p) = true := by
  induction prs with
  | nil => exact ⟨[], rfl, fun _ hp => absurd hp (List.not_mem_nil _)⟩
  | cons pr rest ih =>
    obtain ⟨ps, hps, hall⟩ := ih fun q hq => h q (List.mem_cons_of_mem pr hq)
    cases pr with
    | none => exact absurd (h none (List.mem_cons_self _ _)) (by simp [complete])
    | some p =>
      refine ⟨p :: ps, by rw [List.map_cons, ← hps], ?_⟩
      intro q hq
      rcases List.mem_cons.1 hq with e | e
      · rw [e]; exact h (some p) (List.mem_cons_self _ _)
      · exact hall q e

/-- C4: whenever `main` appends a row for a pull request, its labels are
`names.map labelNamed` for some list `names`, and the third cell of the row is
`names` joined with `", "`, in that order and with nothing dropped; a row is
appended whenever every pointer is set; and with no labels the cell is the empty
string. -/
theorem C4_labels_cell_is_the_joined_names {τ : Type} (Format : τ → GoString → GoString)
    (p : PullRequest τ) :
    (∀ row, mainRow Format (some p) = .ok row →
      ∃ names : List GoString, p.Labels = names.map labelNamed ∧
        row.get? 2 = some (strings.Join names ", ".toList) ∧
        strings.Join names ", ".toList = List.intercalate ", ".toList names) ∧
    (complete (some p) = true → ∃ row, mainRow Format (some p) = .ok row) ∧
    (∀ row, p.Labels = [] → mainRow Format (some p) = .ok row → row.get? 2 = some []) := by
  have key : ∀ row, mainRow Format (some p) = .ok row →
      ∃ names : List GoString, p.Labels = names.map labelNamed ∧
        row.get? 2 = some (strings.Join names ", ".toList) := by
    intro row h
    have hc := complete_of_mainRow_ok Format (some p) row h
    rw [mainRow_of_complete Format p hc] at h
    simp only [complete, Bool.and_eq_true] at hc
    obtain ⟨names, hn⟩ := named_of_all_present p.Labels hc.2
    refine ⟨names, hn, ?_⟩
    rw [← Except.ok.inj h, join_eq_intercalate, specRow, labelNames_named p names hn]
    rfl
  refine ⟨?_, ?_, ?_⟩
  · intro row h
    obtain ⟨names, hn, hcell⟩ := key row h
    exact ⟨names, hn, hcell, join_eq_intercalate _ _⟩
  · intro hc
    exact ⟨_, mainRow_of_complete Format p hc⟩
  · intro row hl h
    obtain ⟨names, hn, hcell⟩ := key row h
    rw [hl] at hn
    have : names = [] := by
      cases names with
      | nil => rfl
      | cons n ns => simp at hn
    rw [hcell, this]
    rfl

/-- C5: with no pull request the loop builds no row and the model is built
without a failure; and for every list of records with every pointer set, the
loop returns a row list of the same length whose row `i` is the row of record
`i`, and the model pairs that row list with the unchanged record list. -/
theorem C5_rows_follow_the_records {τ : Type} (Format : τ → GoString → GoString) :
    mainRows Format [] [] = .ok [] ∧
    mainModel Format [] = .ok { table := table.New [] true, prs := [] } ∧
    ∀ prs : List (Option (PullRequest τ)), (∀ pr ∈ prs, complete pr = true) →
      ∃ rows, mainRows Format prs [] = .ok rows ∧
        mainModel Format prs = .ok { table := table.New rows true, prs := prs } ∧
        rows.length = prs.length ∧
        ∀ i, i < prs.length →
          ∃ p, prs.get? i = some (some p) ∧ rows.get? i = some (specRow Format p) ∧
            mainRow Format (some p) = .ok (specRow Format p) := by
  refine ⟨rfl, rfl, ?_⟩
  intro prs hall
  obtain ⟨ps, rfl, hps⟩ := present_of_complete prs hall
  have hrows := mainRows_of_complete Format ps [] hps
  rw [List.nil_append] at hrows
  refine ⟨ps.map (specRow Format), hrows, ?_, by simp, ?_⟩
  · simp only [mainModel, hrows]
  · intro i hi
    rw [List.length_map] at hi
    refine ⟨ps.get ⟨i, hi⟩, ?_, ?_, ?_⟩
    · simp only [List.get?_eq_getElem?, List.getElem?_map, List.getElem?_eq_getElem hi,
        Option.map_some', List.get_eq_getElem]
    · simp only [List.get?_eq_getElem?, List.getElem?_map, List.getElem?_eq_getElem hi,
        Option.map_some', List.get_eq_getElem]
    · exact mainRow_of_complete Format _ (hps _ (List.get_mem ps i hi))

theorem sampleTableUpdate_cmd (t : table.Model) (msg : Msg) :
    (sampleTableUpdate t msg).2 = .nil := by
  unfold sampleTableUpdate
  split
  · split
    · split
      · rfl
      · split <;> rfl
    · rfl
  · rfl

theorem sampleTableUpdate_focus (t : table.Model) (msg : Msg) :
    ((sampleTableUpdate t msg).1).Focused = t.Focused := by
  unfold sampleTableUpdate
  split
  · split
    · split
      · rfl
      · split <;> rfl
    · rfl
  · rfl

/-- The rows of the two sample records, run through the loop. -/
theorem sample_rows :
    mainRows sampleFormat samplePulls [] =
      .ok [["Fix crash".toList, "alice".toList, [], dateLayout], sampleRow2] := by
  decide

/-- After `down` in a fresh model without pull requests the sample widget leaves
the cursor at `-1`. -/
theorem sample_down_on_empty :
    mainModel sampleFormat [] = .ok { table := table.New [] true, prs := [] } ∧
    model.Update sampleTableUpdate { table := table.New [] true, prs := ([] : List (Option (PullRequest Nat))) }
      (.KeyMsg "down") = .ok (emptyModelBelowZero, .nil) := by
  decide

/-- C3 at the sample model: `enter` on row 1 opens the URL of record 1. -/
theorem C3_enter_opens_the_record_at_the_cursor_witness :
    model.Update sampleTableUpdate sampleModel (.KeyMsg "enter") =
      .ok (sampleModel,
        .ExecProcess "xdg-open".toList ["https://github.com/acme/widgets/pull/2".toList]) :=
  (C3_enter_opens_the_record_at_the_cursor sampleTableUpdate
    (fun t name arg => by rw [sampleTableUpdate_cmd]; exact Cmd.noConfusion)
    sampleModel 1 rfl (by decide)).1 samplePull2
    "https://github.com/acme/widgets/pull/2".toList rfl rfl (Or.inr (by decide))

/-- C4 at the sample with the labels `bug`, `P1`, `needs-review`. -/
theorem C4_labels_cell_witness :
    ∃ names : List GoString, samplePull2.Labels = names.map labelNamed ∧
      sampleRow2.get? 2 = some (strings.Join names ", ".toList) ∧
      strings.Join names ", ".toList = List.intercalate ", ".toList names :=
  (C4_labels_cell_is_the_joined_names sampleFormat samplePull2).1 sampleRow2 (by decide)

/-- C5 at the two sample records. -/
theorem C5_rows_follow_the_records_witness :
    ∃ rows, mainRows sampleFormat samplePulls [] = .ok rows ∧
      mainModel sampleFormat samplePulls =
        .ok { table := table.New rows true, prs := samplePulls } ∧
      rows.length = samplePulls.length ∧
      ∀ i, i < samplePulls.length →
        ∃ p, samplePulls.get? i = some (some p) ∧ rows.get? i = some (specRow sampleFormat p) ∧
          mainRow sampleFormat (some p) = .ok (specRow sampleFormat p) :=
  (C5_rows_follow_the_records sampleFormat).2.2 samplePulls (by decide)

/-- C6 at the sample model. -/
theorem C6_esc_twice_restores_focus_witness :
    ∃ m1 c1 m2 c2,
      model.Update sampleTableUpdate sampleModel (.KeyMsg "esc") = .ok (m1, c1) ∧
      m1.table.Focused = !sampleModel.table.Focused ∧
      model.Update sampleTableUpdate m1 (.KeyMsg "esc") = .ok (m2, c2) ∧
      m2.table.Focused = sampleModel.table.Focused :=
  C6_esc_twice_restores_focus sampleTableUpdate
    (fun t => sampleTableUpdate_focus t (.KeyMsg "esc")) sampleModel

/-- C10 as written fails: with no record and the cursor at `-1` the lookup is
out of range although the cursor is less than the number of records. -/
theorem C10_negative_cursor_counterexample :
    model.Update sampleTableUpdate emptyModelBelowZero (.KeyMsg "enter") =
      .error (.indexOutOfRange (-1) 0) ∧
    ¬ ((emptyModelBelowZero.prs.length : Int) ≤ emptyModelBelowZero.table.Cursor) := by
  decide

/-- C10, amended: handling `enter` stops with the out-of-range panic exactly
when the cursor is negative or not less than the number of records; that is so
for every model without records, the freshly built one included; and with the
cursor inside the list, on a record that is present and has a web URL, handling
`enter` returns a result. -/
theorem C10_enter_lookup_bounds {τ : Type} (tableUpdate : TableUpdate) (m : model τ) :
    (model.Update tableUpdate m (.KeyMsg "enter") =
        .error (.indexOutOfRange m.table.Cursor m.prs.length) ↔
      (m.table.Cursor < 0 ∨ (m.prs.length : Int) ≤ m.table.Cursor)) ∧
    (m.prs = [] → model.Update tableUpdate m (.KeyMsg "enter") =
      .error (.indexOutOfRange m.table.Cursor 0)) ∧
    (∀ Format : τ → GoString → GoString, mainModel Format [] = .ok m →
      model.Update tableUpdate m (.KeyMsg "enter") = .error (.indexOutOfRange 0 0)) ∧
    (∀ p url, 0 ≤ m.table.Cursor → m.prs.get? m.table.Cursor.toNat = some (some p) →
      p.HTMLURL = some url →
      ∃ r, model.Update tableUpdate m (.KeyMsg "enter") = .ok r) := by
  have hiff : model.Update tableUpdate m (.KeyMsg "enter") =
        .error (.indexOutOfRange m.table.Cursor m.prs.length) ↔
      (m.table.Cursor < 0 ∨ (m.prs.length : Int) ≤ m.table.Cursor) := by
    rw [← goIndex_out_of_range_iff, update_enter]
    cases hg : goIndex m.prs m.table.Cursor with
    | error e => simp
    | ok pr =>
      simp only [reduceCtorEq, iff_false]
      cases pr with
      | none => simp [model.forward]
      | some p =>
        cases hu : p.HTMLURL with
        | none => simp [deref, hu]
        | some url =>
          simp only [deref, hu]
          split <;> simp [model.forward]
  refine ⟨hiff, ?_, ?_, ?_⟩
  · intro hprs
    have h := hiff.2 (by rw [hprs]; simp only [List.length_nil, Nat.cast_zero]; omega)
    rw [hprs] at h
    rw [h]
    rfl
  · intro Format hm
    have hm2 : m = { table := table.New [] true, prs := [] } := (Except.ok.inj hm).symm
    subst hm2
    exact hiff.2 (Or.inr (le_refl _))
  · intro p url h0 hp hu
    have hc : m.table.Cursor = ((m.table.Cursor.toNat : Nat) : Int) := (Int.toNat_of_nonneg h0).symm
    rw [update_enter, hc, goIndex_of_lt _ _ _ hp]
    simp only [hu, deref]
    split
    · exact ⟨_, rfl⟩
    · exact ⟨_, rfl⟩

/-- C10, amended, at the sample model. -/
theorem C10_enter_lookup_bounds_witness :
    ∃ r, model.Update sampleTableUpdate sampleModel (.KeyMsg "enter") = .ok r :=
  (C10_enter_lookup_bounds sampleTableUpdate sampleModel).2.2.2 samplePull2
    "https://github.com/acme/widgets/pull/2".toList (by decide) rfl rfl

end GitPrTui
